import Mathlib

/-! Verification development for the repository's named-constant registry
(the bidirectional enum lookup pattern described in the documentation and
illustrated by the enum examples), together with the discriminated-union
area function and the generic first-element function from the sources. -/

/-- Modelled from the spec: a registry value is an integer or a string.
The registry construction algorithm is not implemented under src (the
sources only declare enums and show one compiled output); it is modelled
from the specification's processing rule. -/
inductive Value where
  | int (n : Int)
  | str (s : String)
deriving DecidableEq, Repr

/-- Modelled from the spec: an entry of the input sequence is a name that is
either bare (auto-assign) or carries an explicit integer or string value. -/
structure Entry where
  name : String
  val : Option Value
deriving DecidableEq, Repr

/-- Modelled from the spec: the three error kinds of the registry component. -/
inductive RegError where
  | DuplicateNameError
  | NameNotFoundError
  | NoReverseMappingError
deriving DecidableEq, Repr

/-- Modelled from the spec: a registry holds a forward mapping (name to value,
in entry order) and a reverse mapping (integer value to name, most recently
assigned first). -/
structure Registry where
  forward : List (String × Value)
  reverse : List (Int × String)
deriving DecidableEq, Repr

/-- Modelled from the spec: scan entries in order with a running next-auto
counter; a bare name takes the counter value and increments it; an explicit
integer entry takes its value and resets the counter to value plus one; an
explicit string entry takes the string and leaves the counter unaffected.
Integer assignments are pushed onto the reverse list (so the most recent
assignment for a value wins on lookup); a repeated name aborts construction
with DuplicateNameError. -/
def buildAux : List Entry → Int → List (String × Value) → List (Int × String) →
    Except RegError Registry
  | [], _, fwd, rev => .ok ⟨fwd, rev⟩
  | e :: rest, counter, fwd, rev =>
    if e.name ∈ fwd.map Prod.fst then
      .error .DuplicateNameError
    else
      match e.val with
      | none =>
        buildAux rest (counter + 1) (fwd ++ [(e.name, .int counter)])
          ((counter, e.name) :: rev)
      | some (.int v) =>
        buildAux rest (v + 1) (fwd ++ [(e.name, .int v)])
          ((v, e.name) :: rev)
      | some (.str s) =>
        buildAux rest counter (fwd ++ [(e.name, .str s)]) rev

/-- Modelled from the spec: construct a registry from an ordered sequence of
entries, starting the auto-assignment counter at zero. -/
def buildRegistry (entries : List Entry) : Except RegError Registry :=
  buildAux entries 0 [] []

/-- Modelled from the spec: forward lookup by name returns the bound value or
NameNotFoundError when the name is absent. -/
def forwardLookup (r : Registry) (name : String) : Except RegError Value :=
  match List.lookup name r.forward with
  | some v => .ok v
  | none => .error .NameNotFoundError

/-- Modelled from the spec: reverse lookup by value returns the most recently
assigned name for an integer value, and NoReverseMappingError when the value
is non-integer or absent from the reverse mapping. -/
def reverseLookup (r : Registry) (v : Value) : Except RegError String :=
  match v with
  | .str _ => .error .NoReverseMappingError
  | .int n =>
    match List.lookup n r.reverse with
    | some name => .ok name
    | none => .error .NoReverseMappingError

/-- The value each entry receives under the spec's processing rule, recorded
in entry order; used to characterise successful construction. -/
def assignValues : List Entry → Int → List (String × Value)
  | [], _ => []
  | e :: rest, c =>
    match e.val with
    | none => (e.name, .int c) :: assignValues rest (c + 1)
    | some (.int v) => (e.name, .int v) :: assignValues rest (v + 1)
    | some (.str s) => (e.name, .str s) :: assignValues rest c

/-- The auto-assignment counter left after processing a sequence of entries. -/
def counterAfter : List Entry → Int → Int
  | [], c => c
  | e :: rest, c =>
    match e.val with
    | none => counterAfter rest (c + 1)
    | some (.int v) => counterAfter rest (v + 1)
    | some (.str _) => counterAfter rest c

/-- Push the integer assignments of a forward list onto a reverse list, most
recent assignment first; characterises the reverse mapping built alongside. -/
def revAdd : List (String × Value) → List (Int × String) → List (Int × String)
  | [], rev => rev
  | (n, .int v) :: rest, rev => revAdd rest ((v, n) :: rev)
  | (_, .str _) :: rest, rev => revAdd rest rev

/-- The integer-valued pairs of a forward list, swapped for reverse lookup. -/
def intPairs (fwd : List (String × Value)) : List (Int × String) :=
  fwd.filterMap fun p =>
    match p.2 with
    | .int v => some (v, p.1)
    | .str _ => none

/-- A bare entry, auto-assigned at construction. -/
def bare (n : String) : Entry := ⟨n, none⟩

/-- The heterogeneous enum Mixed from the sources, as a registry input. -/
def Mixed : List Entry := [⟨"No", some (.int 0)⟩, ⟨"Yes", some (.str "YES")⟩]

/-- The numeric enum Direction from the sources, as a registry input. -/
def DirectionEntries : List Entry :=
  [bare "Up", bare "Down", bare "Left", bare "Right"]

/-- A query against a built registry: forward by name or reverse by value. -/
inductive Op where
  | fwd (name : String)
  | rev (v : Value)

/-- The result carried by a successful query. -/
inductive OpResult where
  | value (v : Value)
  | name (n : String)

/-- Run one query against a registry, returning the registry state alongside
the result; queries are the only post-construction operations. -/
def runOp (r : Registry) : Op → Registry × Except RegError OpResult
  | .fwd n => (r, (forwardLookup r n).map .value)
  | .rev v => (r, (reverseLookup r v).map .name)

/-- The discriminated union Shape from union.ts. -/
inductive Shape where
  | circle (radius : Real)
  | square (side : Real)
  | rectangle (width height : Real)

/-- The kind tag discriminating the Shape variants in union.ts. -/
def Shape.kind : Shape → String
  | .circle _ => "circle"
  | .square _ => "square"
  | .rectangle _ _ => "rectangle"

/-- The area function getArea from union.ts: switch on the kind tag, with the
circle, square and rectangle cases covering every variant (the default branch
is the unreachable never case). -/
noncomputable def getArea : Shape → Real
  | .circle radius => Real.pi * radius ^ 2
  | .square side => side ^ 2
  | .rectangle width height => width * height

/-- The generic first-element function from arrays.ts: reading index 0 of an
array, which yields no value (undefined) on an empty array. -/
def getFirstElement {α : Type} (arr : List α) : Option α := arr[0]?

/-- Extract the integer of a value, when it is one. -/
def getInt : Value → Option Int
  | .int v => some v
  | .str _ => none

theorem lookup_eq_of_mem {α β : Type} [BEq α] [LawfulBEq α]
    (l : List (α × β)) (hnd : (l.map Prod.fst).Nodup) {k : α} {v : β}
    (h : (k, v) ∈ l) : List.lookup k l = some v := by
  induction l with
  | nil => simp at h
  | cons p t ih =>
    obtain ⟨a, b⟩ := p
    simp only [List.map_cons, List.nodup_cons] at hnd
    rcases List.mem_cons.mp h with heq | hmem
    · obtain ⟨rfl, rfl⟩ := Prod.mk.injEq .. ▸ heq
      simp [List.lookup]
    · have hka : (k == a) = false := by
        rw [beq_eq_false_iff_ne]
        rintro rfl
        exact hnd.1 (List.mem_map_of_mem Prod.fst hmem)
      simp only [List.lookup, hka]
      exact ih hnd.2 hmem

theorem lookup_append_of_not_mem {α β : Type} [BEq α] [LawfulBEq α]
    (l1 l2 : List (α × β)) (k : α) (hk : k ∉ l1.map Prod.fst) :
    List.lookup k (l1 ++ l2) = List.lookup k l2 := by
  induction l1 with
  | nil => rfl
  | cons p t ih =>
    obtain ⟨a, b⟩ := p
    simp only [List.map_cons, List.mem_cons, not_or] at hk
    have hka : (k == a) = false := by
      rw [beq_eq_false_iff_ne]; exact hk.1
    simp only [List.cons_append, List.lookup, hka]
    exact ih hk.2

theorem assignValues_keys (es : List Entry) :
    ∀ c : Int, (assignValues es c).map Prod.fst = es.map Entry.name := by
  induction es with
  | nil => intro c; rfl
  | cons e rest ih =>
    intro c
    cases hv : e.val with
    | none => simp [assignValues, hv, ih]
    | some v =>
      cases v with
      | int n => simp [assignValues, hv, ih]
      | str s => simp [assignValues, hv, ih]

theorem buildAux_ok (es : List Entry) :
    ∀ (c : Int) (fwd : List (String × Value)) (rev : List (Int × String)),
    (fwd.map Prod.fst ++ es.map Entry.name).Nodup →
    buildAux es c fwd rev =
      .ok ⟨fwd ++ assignValues es c, revAdd (assignValues es c) rev⟩ := by
  induction es with
  | nil =>
    intro c fwd rev _
    simp [buildAux, assignValues, revAdd]
  | cons e rest ih =>
    intro c fwd rev hnd
    have hnotin : e.name ∉ fwd.map Prod.fst := by
      intro hmem
      rw [List.nodup_append] at hnd
      exact hnd.2.2 hmem (by simp)
    cases hv : e.val with
    | none =>
      have hnd2 : ((fwd ++ [(e.name, Value.int c)]).map Prod.fst ++
          rest.map Entry.name).Nodup := by
        simpa using hnd
      simp only [buildAux, hv, if_neg hnotin]
      rw [ih (c + 1) (fwd ++ [(e.name, Value.int c)]) ((c, e.name) :: rev) hnd2]
      simp [assignValues, hv, revAdd]
    | some v =>
      cases v with
      | int m =>
        have hnd2 : ((fwd ++ [(e.name, Value.int m)]).map Prod.fst ++
            rest.map Entry.name).Nodup := by
          simpa using hnd
        simp only [buildAux, hv, if_neg hnotin]
        rw [ih (m + 1) (fwd ++ [(e.name, Value.int m)]) ((m, e.name) :: rev) hnd2]
        simp [assignValues, hv, revAdd]
      | str s =>
        have hnd2 : ((fwd ++ [(e.name, Value.str s)]).map Prod.fst ++
            rest.map Entry.name).Nodup := by
          simpa using hnd
        simp only [buildAux, hv, if_neg hnotin]
        rw [ih c (fwd ++ [(e.name, Value.str s)]) rev hnd2]
        simp [assignValues, hv, revAdd]

theorem buildAux_err (es : List Entry) :
    ∀ (c : Int) (fwd : List (String × Value)) (rev : List (Int × String)),
    (fwd.map Prod.fst).Nodup →
    ¬ (fwd.map Prod.fst ++ es.map Entry.name).Nodup →
    buildAux es c fwd rev = .error .DuplicateNameError := by
  induction es with
  | nil =>
    intro c fwd rev h1 h2
    simp at h2
    exact absurd h1 h2
  | cons e rest ih =>
    intro c fwd rev h1 h2
    by_cases hmem : e.name ∈ fwd.map Prod.fst
    · simp [buildAux, if_pos hmem]
    · have hgrow : ∀ val : Value,
          ((fwd ++ [(e.name, val)]).map Prod.fst).Nodup := by
        intro val
        rw [List.map_append]
        refine List.Nodup.append h1 (by simp) ?_
        intro a ha hb
        simp at hb
        exact hmem (hb ▸ ha)
      have hbad : ∀ val : Value,
          ¬ ((fwd ++ [(e.name, val)]).map Prod.fst ++
            rest.map Entry.name).Nodup := by
        intro val h
        exact h2 (by simpa using h)
      cases hv : e.val with
      | none =>
        simp only [buildAux, hv, if_neg hmem]
        exact ih _ _ _ (hgrow _) (hbad _)
      | some v =>
        cases v with
        | int m =>
          simp only [buildAux, hv, if_neg hmem]
          exact ih _ _ _ (hgrow _) (hbad _)
        | str s =>
          simp only [buildAux, hv, if_neg hmem]
          exact ih _ _ _ (hgrow _) (hbad _)

theorem build_ok (es : List Entry) (hnd : (es.map Entry.name).Nodup) :
    buildRegistry es =
      .ok ⟨assignValues es 0, revAdd (assignValues es 0) []⟩ := by
  have := buildAux_ok es 0 [] [] (by simpa using hnd)
  simpa [buildRegistry] using this

theorem build_err (es : List Entry) (hnd : ¬ (es.map Entry.name).Nodup) :
    buildRegistry es = .error .DuplicateNameError := by
  have := buildAux_err es 0 [] [] (by simp) (by simpa using hnd)
  simpa [buildRegistry] using this

theorem build_ok_inv (es : List Entry) (r : Registry)
    (h : buildRegistry es = .ok r) :
    (es.map Entry.name).Nodup ∧
      r = ⟨assignValues es 0, revAdd (assignValues es 0) []⟩ := by
  by_cases hnd : (es.map Entry.name).Nodup
  · refine ⟨hnd, ?_⟩
    have hok := build_ok es hnd
    rw [h] at hok
    exact Except.ok.inj hok
  · rw [build_err es hnd] at h
    cases h

theorem mem_assign_bare (ns : List String) :
    ∀ (c : Int) (j : Nat) (hj : j < ns.length),
    (ns.get ⟨j, hj⟩, Value.int (c + j)) ∈ assignValues (ns.map bare) c := by
  induction ns with
  | nil =>
    intro c j hj
    simp at hj
  | cons n t ih =>
    intro c j hj
    cases j with
    | zero =>
      simp [assignValues, bare]
    | succ j2 =>
      have hmem := ih (c + 1) j2 (Nat.lt_of_succ_lt_succ hj)
      have heq : (c + 1) + (j2 : Int) = c + ((j2 + 1 : Nat) : Int) := by
        push_cast
        ring
      rw [heq] at hmem
      simpa [assignValues, bare] using Or.inr hmem

theorem assignValues_append (xs : List Entry) :
    ∀ (ys : List Entry) (c : Int),
    assignValues (xs ++ ys) c =
      assignValues xs c ++ assignValues ys (counterAfter xs c) := by
  induction xs with
  | nil => intro ys c; simp [assignValues, counterAfter]
  | cons e t ih =>
    intro ys c
    cases hv : e.val with
    | none => simp [assignValues, counterAfter, hv, ih]
    | some v =>
      cases v with
      | int m => simp [assignValues, counterAfter, hv, ih]
      | str s => simp [assignValues, counterAfter, hv, ih]

theorem revAdd_eq (fwd : List (String × Value)) :
    ∀ rev, revAdd fwd rev = (intPairs fwd).reverse ++ rev := by
  induction fwd with
  | nil => intro rev; simp [revAdd, intPairs]
  | cons p t ih =>
    intro rev
    obtain ⟨n, v⟩ := p
    cases v with
    | int m => simp [revAdd, intPairs, ih, List.filterMap_cons]
    | str s => simp [revAdd, intPairs, ih, List.filterMap_cons]

theorem mem_intPairs (fwd : List (String × Value)) (v : Int) (n : String) :
    (v, n) ∈ intPairs fwd ↔ (n, Value.int v) ∈ fwd := by
  unfold intPairs
  rw [List.mem_filterMap]
  constructor
  · rintro ⟨⟨a, b⟩, hmem, heq⟩
    cases b with
    | int m =>
      simp at heq
      obtain ⟨rfl, rfl⟩ := heq
      exact hmem
    | str s => simp at heq
  · intro h
    exact ⟨(n, Value.int v), h, rfl⟩

theorem intPairs_keys (fwd : List (String × Value)) :
    (intPairs fwd).map Prod.fst = (fwd.map Prod.snd).filterMap getInt := by
  induction fwd with
  | nil => rfl
  | cons p t ih =>
    obtain ⟨n, v⟩ := p
    cases v with
    | int m => simp [intPairs, getInt, List.filterMap_cons] at ih ⊢; exact ih
    | str s => simp [intPairs, getInt, List.filterMap_cons] at ih ⊢; exact ih

theorem intPairs_keys_nodup (fwd : List (String × Value))
    (hvals : (fwd.map Prod.snd).Nodup) :
    ((intPairs fwd).map Prod.fst).Nodup := by
  rw [intPairs_keys]
  refine List.Nodup.filterMap ?_ hvals
  intro a a2 b hb hb2
  cases a with
  | int m =>
    cases a2 with
    | int m2 =>
      simp [getInt] at hb hb2
      rw [hb, hb2]
    | str s => simp [getInt] at hb2
  | str s => simp [getInt] at hb

example : buildRegistry DirectionEntries =
    .ok ⟨[("Up", .int 0), ("Down", .int 1), ("Left", .int 2), ("Right", .int 3)],
      [(3, "Right"), (2, "Left"), (1, "Down"), (0, "Up")]⟩ := by rfl

theorem map_name_bare (names : List String) :
    (names.map bare).map Entry.name = names := by
  induction names with
  | nil => rfl
  | cons n t ih =>
    simp only [List.map_cons]
    rw [ih]
    rfl

/-- C1: for every registry built from N bare (auto-assigned) names, forward
lookup of the k-th name (0-indexed) returns k. -/
theorem registry_bare_forward (names : List String) (hnd : names.Nodup)
    (k : Nat) (hk : k < names.length) :
    ∃ r, buildRegistry (names.map bare) = .ok r ∧
      forwardLookup r (names.get ⟨k, hk⟩) = .ok (.int k) := by
  have hnames : (names.map bare).map Entry.name = names := map_name_bare names
  have hok := build_ok (names.map bare) (by rw [hnames]; exact hnd)
  refine ⟨_, hok, ?_⟩
  have hkeys : ((assignValues (names.map bare) 0).map Prod.fst).Nodup := by
    rw [assignValues_keys, hnames]
    exact hnd
  have hmem := mem_assign_bare names 0 k hk
  have hlook := lookup_eq_of_mem _ hkeys hmem
  simp only [forwardLookup]
  rw [hlook]
  norm_num

/-- Witness for C1: the bare Direction names Up, Down, Left, Right resolve
forward(Up) to 0 and forward(Right) to 3. -/
theorem registry_bare_forward_wit :
    (∃ r, buildRegistry (["Up", "Down", "Left", "Right"].map bare) = .ok r ∧
      forwardLookup r "Up" = .ok (.int 0)) ∧
    (∃ r, buildRegistry (["Up", "Down", "Left", "Right"].map bare) = .ok r ∧
      forwardLookup r "Right" = .ok (.int 3)) :=
  ⟨registry_bare_forward ["Up", "Down", "Left", "Right"] (by decide) 0 (by decide),
   registry_bare_forward ["Up", "Down", "Left", "Right"] (by decide) 3 (by decide)⟩

/-- C6: construction fails with DuplicateNameError whenever two entries share
a name, regardless of their values; that is the only construction-time
failure, and construction from distinct names always succeeds. -/
theorem registry_duplicate_name (entries : List Entry) :
    (∀ (pre mid post : List Entry) (n : String) (v1 v2 : Option Value),
      entries = pre ++ ⟨n, v1⟩ :: mid ++ ⟨n, v2⟩ :: post →
      buildRegistry entries = .error .DuplicateNameError) ∧
    (∀ e, buildRegistry entries = .error e → e = .DuplicateNameError) ∧
    ((entries.map Entry.name).Nodup → ∃ r, buildRegistry entries = .ok r) := by
  refine ⟨?_, ?_, ?_⟩
  · rintro pre mid post n v1 v2 rfl
    apply build_err
    intro hn
    have hcount := List.nodup_iff_count_le_one.mp hn n
    simp [List.count_append, List.count_cons] at hcount
    omega
  · intro e h
    by_cases hnd : (entries.map Entry.name).Nodup
    · rw [build_ok entries hnd] at h
      cases h
    · rw [build_err entries hnd] at h
      exact (Except.error.inj h).symm
  · intro hnd
    exact ⟨_, build_ok entries hnd⟩

/-- Witness for C6: two entries both named A fail construction even with
different value shapes, while distinct names A, B build successfully. -/
theorem registry_duplicate_name_wit :
    buildRegistry [⟨"A", some (.int 0)⟩, ⟨"A", some (.str "x")⟩] =
      .error .DuplicateNameError ∧
    ∃ r, buildRegistry [bare "A", bare "B"] = .ok r :=
  ⟨(registry_duplicate_name _).1 [] [] [] "A" (some (.int 0)) (some (.str "x")) rfl,
   (registry_duplicate_name _).2.2 (by decide)⟩

/-- C2: for every registry containing only unique integer values, reverse
lookup inverts forward lookup: for each name in the registry,
reverse(forward(name)) returns that name. -/
theorem registry_reverse_inverse (entries : List Entry) (r : Registry)
    (hb : buildRegistry entries = .ok r)
    (hint : ∀ p ∈ r.forward, ∃ v : Int, p.2 = Value.int v)
    (huniq : (r.forward.map Prod.snd).Nodup)
    (name : String) (hmem : name ∈ r.forward.map Prod.fst) :
    ∃ v, forwardLookup r name = .ok v ∧ reverseLookup r v = .ok name := by
  obtain ⟨hnd, rfl⟩ := build_ok_inv entries r hb
  have hkeys : ((assignValues entries 0).map Prod.fst).Nodup := by
    rw [assignValues_keys]
    exact hnd
  obtain ⟨p, hp, hpn⟩ := List.mem_map.mp hmem
  obtain ⟨v, hv⟩ := hint p hp
  have hp2 : (name, Value.int v) ∈ assignValues entries 0 := by
    have hpe : p = (name, Value.int v) := by
      cases p
      simp only at hpn hv
      rw [hpn, hv]
    rw [← hpe]
    exact hp
  have hlook := lookup_eq_of_mem _ hkeys hp2
  refine ⟨Value.int v, ?_, ?_⟩
  · simp only [forwardLookup]
    rw [hlook]
  · have hrev : revAdd (assignValues entries 0) [] =
        (intPairs (assignValues entries 0)).reverse := by
      rw [revAdd_eq]
      simp
    have hrkeys : ((intPairs (assignValues entries 0)).reverse.map
        Prod.fst).Nodup := by
      rw [List.map_reverse, List.nodup_reverse]
      exact intPairs_keys_nodup _ huniq
    have hrmem : (v, name) ∈ (intPairs (assignValues entries 0)).reverse := by
      rw [List.mem_reverse, mem_intPairs]
      exact hp2
    have hlook2 := lookup_eq_of_mem _ hrkeys hrmem
    simp only [reverseLookup]
    rw [hrev, hlook2]

/-- Witness for C2: in the registry built from the bare Direction names,
reverse lookup inverts forward lookup at the name Left. -/
theorem registry_reverse_inverse_wit :
    ∃ v, forwardLookup
      ⟨[("Up", .int 0), ("Down", .int 1), ("Left", .int 2), ("Right", .int 3)],
        [(3, "Right"), (2, "Left"), (1, "Down"), (0, "Up")]⟩ "Left" = .ok v ∧
      reverseLookup
      ⟨[("Up", .int 0), ("Down", .int 1), ("Left", .int 2), ("Right", .int 3)],
        [(3, "Right"), (2, "Left"), (1, "Down"), (0, "Up")]⟩ v = .ok "Left" := by
  refine registry_reverse_inverse DirectionEntries _ rfl ?_ (by decide) "Left"
    (by decide)
  intro p hp
  fin_cases hp
  · exact ⟨0, rfl⟩
  · exact ⟨1, rfl⟩
  · exact ⟨2, rfl⟩
  · exact ⟨3, rfl⟩

/-- C3: when an entry carries an explicit integer value S and the entries
after it are bare, the i-th bare entry after it resolves to S plus i (the
explicit value resets the auto-assignment counter to S plus one). -/
theorem registry_explicit_reset (pre : List Entry) (n0 : String) (S : Int)
    (tail : List String) (j : Nat) (hj : j < tail.length)
    (hnd : ((pre ++ ⟨n0, some (.int S)⟩ :: tail.map bare).map
      Entry.name).Nodup) :
    ∃ r, buildRegistry (pre ++ ⟨n0, some (.int S)⟩ :: tail.map bare) = .ok r ∧
      forwardLookup r (tail.get ⟨j, hj⟩) = .ok (.int (S + (j + 1))) := by
  have hok := build_ok _ hnd
  refine ⟨_, hok, ?_⟩
  have hkeys : ((assignValues
      (pre ++ ⟨n0, some (.int S)⟩ :: tail.map bare) 0).map Prod.fst).Nodup := by
    rw [assignValues_keys]
    exact hnd
  have hsplit : assignValues (pre ++ ⟨n0, some (.int S)⟩ :: tail.map bare) 0 =
      assignValues pre 0 ++ (n0, Value.int S) ::
        assignValues (tail.map bare) (S + 1) := by
    rw [assignValues_append]
    simp [assignValues]
  have hmem0 := mem_assign_bare tail (S + 1) j hj
  have hmem : (tail.get ⟨j, hj⟩, Value.int (S + 1 + j)) ∈
      assignValues (pre ++ ⟨n0, some (.int S)⟩ :: tail.map bare) 0 := by
    rw [hsplit]
    exact List.mem_append_right _ (List.mem_cons_of_mem _ hmem0)
  have hlook := lookup_eq_of_mem _ hkeys hmem
  have harith : S + 1 + (j : Int) = S + ((j : Int) + 1) := by ring
  rw [harith] at hlook
  simp only [forwardLookup]
  rw [hlook]

/-- Witness for C3: entries Up with explicit value 1 followed by bare Down
and Left resolve Down to 2 and Left to 3. -/
theorem registry_explicit_reset_wit :
    (∃ r, buildRegistry ([] ++ ⟨"Up", some (.int 1)⟩ ::
        ["Down", "Left"].map bare) = .ok r ∧
      forwardLookup r "Down" = .ok (.int 2)) ∧
    (∃ r, buildRegistry ([] ++ ⟨"Up", some (.int 1)⟩ ::
        ["Down", "Left"].map bare) = .ok r ∧
      forwardLookup r "Left" = .ok (.int 3)) :=
  ⟨registry_explicit_reset [] "Up" 1 ["Down", "Left"] 0 (by decide) (by decide),
   registry_explicit_reset [] "Up" 1 ["Down", "Left"] 1 (by decide) (by decide)⟩

theorem intPairs_append (xs ys : List (String × Value)) :
    intPairs (xs ++ ys) = intPairs xs ++ intPairs ys := by
  simp [intPairs, List.filterMap_append]

/-- C4: when two integer-valued entries are assigned the same value v (and no
later entry is), reverse lookup of v returns the later entry's name, while
forward lookup of both names still returns v. -/
theorem registry_reverse_overwrite (entries : List Entry)
    (xs ys : List (String × Value)) (ni nj : String) (v : Int)
    (hnd : (entries.map Entry.name).Nodup)
    (hsplit : assignValues entries 0 = xs ++ (nj, Value.int v) :: ys)
    (hmem : (ni, Value.int v) ∈ xs)
    (hys : ∀ p ∈ ys, p.2 ≠ Value.int v) :
    ∃ r, buildRegistry entries = .ok r ∧
      reverseLookup r (.int v) = .ok nj ∧
      forwardLookup r ni = .ok (.int v) ∧
      forwardLookup r nj = .ok (.int v) := by
  have hok := build_ok entries hnd
  have hkeys : ((assignValues entries 0).map Prod.fst).Nodup := by
    rw [assignValues_keys]
    exact hnd
  refine ⟨_, hok, ?_, ?_, ?_⟩
  · have hrev : revAdd (assignValues entries 0) [] =
        (intPairs ys).reverse ++ (v, nj) :: (intPairs xs).reverse := by
      rw [revAdd_eq, hsplit, intPairs_append]
      have hcons : intPairs ((nj, Value.int v) :: ys) =
          (v, nj) :: intPairs ys := by
        simp [intPairs, List.filterMap_cons]
      rw [hcons]
      simp
    have hvB : v ∉ (intPairs ys).reverse.map Prod.fst := by
      rw [List.map_reverse, List.mem_reverse]
      intro hvmem
      obtain ⟨q, hq, hq1⟩ := List.mem_map.mp hvmem
      obtain ⟨qv, qn⟩ := q
      simp only at hq1
      rw [hq1] at hq
      exact hys (qn, Value.int v) ((mem_intPairs ys v qn).mp hq) rfl
    simp only [reverseLookup]
    rw [hrev, lookup_append_of_not_mem _ _ _ hvB]
    simp [List.lookup]
  · have hm : (ni, Value.int v) ∈ assignValues entries 0 := by
      rw [hsplit]
      exact List.mem_append_left _ hmem
    have hlook := lookup_eq_of_mem _ hkeys hm
    simp only [forwardLookup]
    rw [hlook]
  · have hm : (nj, Value.int v) ∈ assignValues entries 0 := by
      rw [hsplit]
      exact List.mem_append_right _ (List.mem_cons_self _ _)
    have hlook := lookup_eq_of_mem _ hkeys hm
    simp only [forwardLookup]
    rw [hlook]

/-- Witness for C4: entries A and B both explicitly valued 5; reverse lookup
of 5 returns B (the later entry) while both names resolve forward to 5. -/
theorem registry_reverse_overwrite_wit :
    ∃ r, buildRegistry [⟨"A", some (.int 5)⟩, ⟨"B", some (.int 5)⟩] = .ok r ∧
      reverseLookup r (.int 5) = .ok "B" ∧
      forwardLookup r "A" = .ok (.int 5) ∧
      forwardLookup r "B" = .ok (.int 5) :=
  registry_reverse_overwrite [⟨"A", some (.int 5)⟩, ⟨"B", some (.int 5)⟩]
    [("A", .int 5)] [] "A" "B" 5 (by decide) rfl (by simp) (by simp)

/-- C5: reverse lookup of a string value always fails with
NoReverseMappingError (string entries are never added to the reverse
mapping); concretely, for entries No = 0 and Yes = "YES", forward lookup of
Yes gives "YES", reverse lookup of 0 gives No, and reverse lookup of "YES"
fails. -/
theorem registry_string_no_reverse :
    (∀ (entries : List Entry) (r : Registry) (name s : String),
      buildRegistry entries = .ok r → Entry.mk name (some (.str s)) ∈ entries →
      reverseLookup r (.str s) = .error .NoReverseMappingError) ∧
    (∃ r, buildRegistry Mixed = .ok r ∧
      forwardLookup r "Yes" = .ok (.str "YES") ∧
      reverseLookup r (.int 0) = .ok "No" ∧
      reverseLookup r (.str "YES") = .error .NoReverseMappingError) := by
  constructor
  · intro entries r name s _ _
    rfl
  · exact ⟨⟨[("No", .int 0), ("Yes", .str "YES")], [(0, "No")]⟩,
      rfl, rfl, rfl, rfl⟩

/-- Witness for C5: the Mixed registry rejects reverse lookup of "YES". -/
theorem registry_string_no_reverse_wit :
    reverseLookup ⟨[("No", .int 0), ("Yes", .str "YES")], [(0, "No")]⟩
      (.str "YES") = .error .NoReverseMappingError :=
  registry_string_no_reverse.1 Mixed _ "Yes" "YES" rfl (by decide)

/-- C7: an explicitly-valued string entry leaves the auto-assignment counter
unaffected: a bare entry directly after a string entry receives the counter
value reached before the string entry, and such a sequence builds. -/
theorem registry_string_counter (pre : List Entry) (ns s nb : String)
    (rest : List Entry)
    (hnd : ((pre ++ ⟨ns, some (.str s)⟩ :: ⟨nb, none⟩ :: rest).map
      Entry.name).Nodup) :
    ∃ r, buildRegistry (pre ++ ⟨ns, some (.str s)⟩ :: ⟨nb, none⟩ :: rest) =
        .ok r ∧
      forwardLookup r nb = .ok (.int (counterAfter pre 0)) := by
  have hok := build_ok _ hnd
  refine ⟨_, hok, ?_⟩
  have hkeys : ((assignValues
      (pre ++ ⟨ns, some (.str s)⟩ :: ⟨nb, none⟩ :: rest) 0).map
      Prod.fst).Nodup := by
    rw [assignValues_keys]
    exact hnd
  have hmem : (nb, Value.int (counterAfter pre 0)) ∈
      assignValues (pre ++ ⟨ns, some (.str s)⟩ :: ⟨nb, none⟩ :: rest) 0 := by
    rw [assignValues_append]
    refine List.mem_append_right _ ?_
    simp [assignValues]
  have hlook := lookup_eq_of_mem _ hkeys hmem
  simp only [forwardLookup]
  rw [hlook]

/-- Witness for C7: after bare A (counter 1), the string entry S leaves the
counter at 1, so the following bare entry B receives 1. -/
theorem registry_string_counter_wit :
    ∃ r, buildRegistry ([bare "A"] ++ ⟨"S", some (.str "X")⟩ ::
        ⟨"B", none⟩ :: []) = .ok r ∧
      forwardLookup r "B" = .ok (.int (counterAfter [bare "A"] 0)) :=
  registry_string_counter [bare "A"] "S" "X" "B" [] (by decide)

/-- C8: registries are immutable after construction: neither forward nor
reverse lookup changes the registry, any sequence of queries leaves it
untouched, and construction is deterministic, so a built registry has a
single post-construction state. -/
theorem registry_immutable :
    (∀ (r : Registry) (op : Op),
      (runOp r op).1 = r ∧ ((runOp r op).1).forward = r.forward ∧
        ((runOp r op).1).reverse = r.reverse) ∧
    (∀ (r : Registry) (ops : List Op),
      ops.foldl (fun s o => (runOp s o).1) r = r) ∧
    (∀ (entries : List Entry) (r1 r2 : Registry),
      buildRegistry entries = .ok r1 → buildRegistry entries = .ok r2 →
        r1 = r2) := by
  refine ⟨?_, ?_, ?_⟩
  · intro r op
    cases op <;> exact ⟨rfl, rfl, rfl⟩
  · intro r ops
    induction ops with
    | nil => rfl
    | cons o t ih =>
      have h1 : (runOp r o).1 = r := by cases o <;> rfl
      simp only [List.foldl, h1]
      exact ih
  · intro entries r1 r2 h1 h2
    rw [h1] at h2
    exact Except.ok.inj h2

/-- Witness for C8: a forward query on the built Direction registry leaves it
unchanged, and building the Direction entries twice yields the same registry. -/
theorem registry_immutable_wit :
    (runOp ⟨[("Up", .int 0), ("Down", .int 1), ("Left", .int 2),
        ("Right", .int 3)],
      [(3, "Right"), (2, "Left"), (1, "Down"), (0, "Up")]⟩ (.fwd "Up")).1 =
      ⟨[("Up", .int 0), ("Down", .int 1), ("Left", .int 2), ("Right", .int 3)],
        [(3, "Right"), (2, "Left"), (1, "Down"), (0, "Up")]⟩ ∧
    (⟨[("Up", .int 0), ("Down", .int 1), ("Left", .int 2), ("Right", .int 3)],
      [(3, "Right"), (2, "Left"), (1, "Down"), (0, "Up")]⟩ : Registry) =
      ⟨[("Up", .int 0), ("Down", .int 1), ("Left", .int 2), ("Right", .int 3)],
        [(3, "Right"), (2, "Left"), (1, "Down"), (0, "Up")]⟩ :=
  ⟨(registry_immutable.1 _ (.fwd "Up")).1,
   registry_immutable.2.2 DirectionEntries _ _ rfl rfl⟩

/-- C9: getArea returns the area determined by the kind tag of the Shape
value: pi times radius squared for a circle, side squared for a square,
width times height for a rectangle; every Shape carries one of the three
kind tags, so the default (never) branch is unreachable. -/
theorem getArea_by_kind :
    (∀ radius : Real, getArea (.circle radius) = Real.pi * radius ^ 2) ∧
    (∀ side : Real, getArea (.square side) = side ^ 2) ∧
    (∀ width height : Real, getArea (.rectangle width height) =
      width * height) ∧
    (∀ shape : Shape, shape.kind = "circle" ∨ shape.kind = "square" ∨
      shape.kind = "rectangle") := by
  refine ⟨fun _ => rfl, fun _ => rfl, fun _ _ => rfl, ?_⟩
  intro shape
  cases shape with
  | circle radius => exact Or.inl rfl
  | square side => exact Or.inr (Or.inl rfl)
  | rectangle width height => exact Or.inr (Or.inr rfl)

/-- C10: getFirstElement returns no element on the empty array and the
element at index 0 on every non-empty array. -/
theorem getFirstElement_spec :
    (∀ α : Type, getFirstElement ([] : List α) = none) ∧
    (∀ (α : Type) (x : α) (xs : List α), getFirstElement (x :: xs) = some x) :=
  ⟨fun _ => rfl, fun _ _ _ => by simp [getFirstElement]⟩
